import Mathlib

/-!
Verification development for the `indydb` log-structured key-value store.

The definitions below are a shallow embedding of the store's core source
files (`memtable.rs`, `table.rs`, `db.rs`, `params.rs`, `errors.rs`):

* byte strings are `List Nat` (each element a byte value);
* `u64` big-endian encoding is `beBytes 8`, decoding is `decodeBE`;
* the concurrent hash map backing `MemTable` and the `HashMap` backing a
  `Table` index are association lists whose `insert` removes the previous
  binding (last write wins, one entry per key);
* fallible code returns `Except Error`, a Rust panic is modelled by a
  dedicated outcome constructor, and a possibly non-terminating loop is
  modelled with explicit fuel (`none` = the loop has not returned within
  the given fuel).
-/

/-- Error taxonomy, from `errors.rs` (payload of `IOError` omitted). -/
inductive Error where
  | IOError
  | DBCorruptionError
  | BackgroundFlushError
  | DBNameInvalidError
  | SyncPoisonError
  | SendError
deriving DecidableEq, Repr

/-- `MemValue`, from `memtable.rs`: a present value or a tombstone. -/
inductive MemValue where
  | Value (v : List Nat)
  | Delete
deriving DecidableEq, Repr

/-- `MemValue::encode`, from `memtable.rs`: the on-disk tag byte. -/
def MemValue.encode : MemValue → Nat
  | .Value _ => 0
  | .Delete => 1

/-- Big-endian byte encoding of a natural number on `w` bytes
(`byteorder::write_u64` is `beBytes 8` on values below `2 ^ 64`). -/
def beBytes : Nat → Nat → List Nat
  | 0, _ => []
  | w + 1, n => beBytes w (n / 256) ++ [n % 256]

/-- Big-endian byte decoding (`byteorder::read_u64`). -/
def decodeBE (l : List Nat) : Nat :=
  l.foldl (fun acc b => acc * 256 + b) 0

/-! ### Association-list maps

`chashmap::CHashMap` (backing `MemTable`) and `std::collections::HashMap`
(backing a `Table` index) are modelled as association lists where `insert`
first erases any existing binding of the key. -/

/-- Remove every binding of key `k`. -/
def eraseKey {α : Type} (k : List Nat) : List (List Nat × α) → List (List Nat × α)
  | [] => []
  | p :: m => if p.1 = k then eraseKey k m else p :: eraseKey k m

/-- Hash-map `insert`: the new binding replaces any previous one. -/
def insertA {α : Type} (k : List Nat) (v : α) (m : List (List Nat × α)) :
    List (List Nat × α) :=
  (k, v) :: eraseKey k m

/-- Hash-map lookup. -/
def lookupA {α : Type} (k : List Nat) : List (List Nat × α) → Option α
  | [] => none
  | p :: m => if p.1 = k then some p.2 else lookupA k m

/-- The keys of an association list. -/
def keysOf {α : Type} (m : List (List Nat × α)) : List (List Nat) :=
  m.map (·.1)

/-! ### Generation writer (`TableBuilder`, from `table.rs`) -/

/-- `TableBuilder`, from `table.rs`: in-memory index and data buffers plus
the running data offset and the next generation file id. -/
structure TableBuilder where
  file_no : Nat
  data : List Nat
  index : List Nat
  offset : Nat
deriving DecidableEq, Repr

/-- `TableBuilder::new`. -/
def TableBuilder.new (file_no : Nat) : TableBuilder :=
  { file_no := file_no, data := [], index := [], offset := 0 }

/-- `TableBuilder::encode`: length-prefixed byte string
(8-byte big-endian length, then the bytes). -/
def TableBuilder.encode (d : List Nat) : List Nat :=
  beBytes 8 d.length ++ d

/-- `TableBuilder::add`, from `table.rs` lines 35-49: append the
length-prefixed key and the tag byte to the index buffer; for a present
value also append the current data offset to the index buffer, append the
length-prefixed value to the data buffer, and advance the offset by
`8 + |value|`. -/
def TableBuilder.add (tb : TableBuilder) (key : List Nat) (value : MemValue) :
    TableBuilder :=
  let index1 := tb.index ++ TableBuilder.encode key ++ [value.encode]
  match value with
  | .Value val =>
    { tb with
      index := index1 ++ beBytes 8 tb.offset
      data := tb.data ++ TableBuilder.encode val
      offset := tb.offset + 8 + val.length }
  | .Delete => { tb with index := index1 }

/-- Feed every entry of a drained `MemTable` to `TableBuilder::add`
(the worker loop in `db.rs` lines 139-141). -/
def TableBuilder.addAll (tb : TableBuilder) (es : List (List Nat × MemValue)) :
    TableBuilder :=
  es.foldl (fun b e => b.add e.1 e.2) tb

/-- `TableBuilder::flush`, from `table.rs` lines 60-70: write the data and
index buffers to `<id>.dt` / `<id>.ix`, then reset the buffers and advance
the file id.  The first component is the written `(id, dt, ix)` triple. -/
def TableBuilder.flush (tb : TableBuilder) :
    (Nat × List Nat × List Nat) × TableBuilder :=
  ((tb.file_no, tb.data, tb.index),
   { file_no := tb.file_no + 1, data := [], index := [], offset := 0 })

/-! ### Closed-form file layout (the spec's description of the format)

`entryIndexBytes`, `indexBytesFrom`, `dataBytes` and `totalSize` transcribe
the spec's words for the file layout: per entry the 8-byte big-endian key
length, the key, one tag byte (0 present / 1 tombstone) and, for present
entries, the 8-byte big-endian data offset; the data file is the
concatenation of the present values' length-prefixed records; the offset
advances by `8 + |value|` per present entry. -/

/-- Index bytes of one entry whose present value starts at data offset `off`. -/
def entryIndexBytes (off : Nat) (key : List Nat) : MemValue → List Nat
  | .Value _ => beBytes 8 key.length ++ key ++ [0] ++ beBytes 8 off
  | .Delete => beBytes 8 key.length ++ key ++ [1]

/-- Data bytes contributed by one entry. -/
def entryDataBytes : MemValue → List Nat
  | .Value val => TableBuilder.encode val
  | .Delete => []

/-- Data-file bytes consumed by one entry. -/
def entrySize : MemValue → Nat
  | .Value val => 8 + val.length
  | .Delete => 0

/-- Index-file bytes of a list of entries, the first value at offset `off`. -/
def indexBytesFrom (off : Nat) : List (List Nat × MemValue) → List Nat
  | [] => []
  | e :: es => entryIndexBytes off e.1 e.2 ++ indexBytesFrom (off + entrySize e.2) es

/-- Data-file bytes of a list of entries. -/
def dataBytes : List (List Nat × MemValue) → List Nat
  | [] => []
  | e :: es => entryDataBytes e.2 ++ dataBytes es

/-- Total data-file size of a list of entries. -/
def totalSize : List (List Nat × MemValue) → Nat
  | [] => 0
  | e :: es => entrySize e.2 + totalSize es

/-! ### Generation reader (`Table`, from `table.rs`)

`Table::open` reads `<id>.ix` fully into memory and parses it with the
loop of `table.rs` lines 106-131.  The Rust loop only checks `i >= buf_len`
at the top of an iteration; the slice expressions `index_buf[i..i+8]`,
`index_buf[i+8..i+8+key_size]`, the tag access `index_buf[i]`, and the
offset slice all panic when the buffer is shorter than required.  A panic
is the `crash` outcome below; an unknown tag byte is the `corrupt` outcome
(`Error::DBCorruptionError`). -/

/-- `IndexValue`, from `table.rs`: data-file offset or tombstone marker. -/
inductive IndexValue where
  | Offset (o : Nat)
  | Delete
deriving DecidableEq, Repr

/-- Outcome of parsing an index file: a parsed map, a corruption error,
or a Rust panic (out-of-range slice). -/
inductive ParseOutcome where
  | ok (tbl : List (List Nat × IndexValue))
  | corrupt
  | crash
deriving DecidableEq, Repr

/-- The parsing loop of `Table::open` (`table.rs` lines 106-131), on the
remaining buffer, with the map built so far. -/
def parseIndexAux (acc : List (List Nat × IndexValue)) (buf : List Nat) :
    ParseOutcome :=
  if buf = [] then .ok acc
  else if buf.length < 8 then .crash
  else
    let keySize := decodeBE (buf.take 8)
    if buf.length < 8 + keySize then .crash
    else
      let key := (buf.drop 8).take keySize
      let rest := buf.drop (8 + keySize)
      if _h : rest.length = 0 then .crash
      else
        let tag := rest.headD 0
        let rest2 := rest.tail
        if tag = 0 then
          if rest2.length < 8 then .crash
          else parseIndexAux (insertA key (.Offset (decodeBE (rest2.take 8))) acc)
            (rest2.drop 8)
        else if tag = 1 then parseIndexAux (insertA key .Delete acc) rest2
        else .corrupt
termination_by buf.length
decreasing_by
  · simp only [List.length_drop, List.length_tail] at *
    omega
  · simp only [List.length_drop, List.length_tail] at *
    omega

/-- `Table`: the in-memory index map plus the data-file contents
(`table.rs` opens `<id>.dt` on demand; its contents are carried here). -/
structure Table where
  index : List (List Nat × IndexValue)
  dataFile : List Nat
deriving DecidableEq, Repr

/-- `Table::open` on given index-file and data-file contents: `none`
models the panic (the call never returns). -/
def Table.openModel (ixBytes dtBytes : List Nat) : Option (Except Error Table) :=
  match parseIndexAux [] ixBytes with
  | .ok tbl => some (.ok { index := tbl, dataFile := dtBytes })
  | .corrupt => some (.error .DBCorruptionError)
  | .crash => none

/-- The read loop of `Table::decode` (`table.rs` lines 161-168): the file
cursor stands at `pos + 8`, `size` bytes are wanted, `got` bytes have been
read so far.  Each `file.read` returns `min(wanted, available)` bytes and
a read at end-of-file returns 0 bytes, so the loop can spin forever; fuel
bounds the number of iterations and `none` means the loop has not returned
within the given fuel. -/
def readLoop (file : List Nat) (pos size : Nat) : Nat → Nat → Option (List Nat)
  | 0, _ => none
  | fuel + 1, got =>
    let rb := min (size - got) (file.length - (pos + 8) - got)
    if size ≤ got + rb then some ((file.drop (pos + 8)).take size)
    else readLoop file pos size fuel (got + rb)

/-- `Table::decode` (`table.rs` lines 156-169): seek to `pos`, read the
8-byte big-endian length with `read_exact` (an I/O error when fewer than 8
bytes are available), then read exactly that many bytes in a loop. -/
def decodeFuel (fuel : Nat) (file : List Nat) (pos : Nat) :
    Option (Except Error (List Nat)) :=
  if file.length < pos + 8 then some (.error .IOError)
  else
    match readLoop file pos (decodeBE ((file.drop pos).take 8)) fuel 0 with
    | some content => some (.ok content)
    | none => none

/-- `Table::decode` never returns on this file and offset: every fuel
bound is exhausted. -/
def decodeDiverges (file : List Nat) (pos : Nat) : Prop :=
  ∀ fuel, decodeFuel fuel file pos = none

/-- `Table::get` (`table.rs` lines 142-154): look the key up in the index;
an offset leads to `decode` on the data file, a delete marker returns the
tombstone, an absent key returns `none`. -/
def Table.getFuel (fuel : Nat) (t : Table) (key : List Nat) :
    Option (Except Error (Option MemValue)) :=
  match lookupA key t.index with
  | some (.Offset off) =>
    match decodeFuel fuel t.dataFile off with
    | some (.ok val) => some (.ok (some (.Value val)))
    | some (.error e) => some (.error e)
    | none => none
  | some .Delete => some (.ok (some .Delete))
  | none => some (.ok none)

/-! ### Parsing a builder-produced index file -/

/-- The `IndexValue` view of a list of entries whose first present value
sits at data offset `off` (what `Table::open` reconstructs). -/
def ixEntries (off : Nat) : List (List Nat × MemValue) → List (List Nat × IndexValue)
  | [] => []
  | (k, .Value v) :: es => (k, .Offset off) :: ixEntries (off + (8 + v.length)) es
  | (k, .Delete) :: es => (k, .Delete) :: ixEntries off es

/-- Fold hash-map inserts over a list of parsed entries. -/
def insFold (acc : List (List Nat × IndexValue)) (l : List (List Nat × IndexValue)) :
    List (List Nat × IndexValue) :=
  l.foldl (fun a p => insertA p.1 p.2 a) acc

/-! ### `MemTable` (from `memtable.rs`) -/

/-- `MemTable`: the concurrent map from key bytes to `MemValue`. -/
structure MemTable where
  table : List (List Nat × MemValue)
deriving DecidableEq, Repr

/-- `MemTable::new`. -/
def MemTable.new : MemTable := { table := [] }

/-- `MemTable::get`. -/
def MemTable.get (m : MemTable) (key : List Nat) : Option MemValue :=
  lookupA key m.table

/-- `MemTable::put`: insert or replace with a present value. -/
def MemTable.put (m : MemTable) (key value : List Nat) : MemTable :=
  { table := insertA key (.Value value) m.table }

/-- `MemTable::delete`: insert or replace with a tombstone. -/
def MemTable.delete (m : MemTable) (key : List Nat) : MemTable :=
  { table := insertA key .Delete m.table }

/-- `MemTable::size`, from `memtable.rs` line 46-48: `self.table.len()`,
the number of entries in the map. -/
def MemTable.size (m : MemTable) : Nat :=
  m.table.length

/-- `MemTable::is_empty`. -/
def MemTable.isEmpty (m : MemTable) : Bool :=
  m.table.isEmpty

/-! ### Engine read path and hand-off protocol (`db.rs`)

`DBState` carries the value-level content of the three read stages of
`DB::get`: the mutable `mem_table`, the hand-off `flush_table` slot, and
the on-disk generations listed newest first (`DB::get` scans ids
`count-1` down to `0`; the LRU cache only memoizes open readers and does
not change any lookup result, so generations appear here by their
key-to-`MemValue` content). -/

structure DBState where
  mem : List (List Nat × MemValue)
  flushTable : Option (List (List Nat × MemValue))
  gens : List (List (List Nat × MemValue))
deriving DecidableEq, Repr

/-- The generation loop of `DB::get` (`db.rs` lines 181-192): scan the
generations newest first; a present value returns, a tombstone returns
none, an absent key falls through to the next generation. -/
def gensGet (k : List Nat) : List (List (List Nat × MemValue)) → Option (List Nat)
  | [] => none
  | g :: gs =>
    match lookupA k g with
    | some (.Value v) => some v
    | some .Delete => none
    | none => gensGet k gs

/-- `DB::get` (`db.rs` lines 169-194): `mem_table`, then the occupied
hand-off slot, then the generations newest to oldest; at each stage
`MemValue::Value(v)` returns `Some(v)`, `MemValue::Delete` returns `None`,
and an absent key falls through. -/
def DBState.get (s : DBState) (k : List Nat) : Option (List Nat) :=
  match lookupA k s.mem with
  | some (.Value v) => some v
  | some .Delete => none
  | none =>
    match s.flushTable with
    | some ft =>
      match lookupA k ft with
      | some (.Value v) => some v
      | some .Delete => none
      | none => gensGet k s.gens
    | none => gensGet k s.gens

/-- The stage list of the read path, in search order. -/
def stagesOf (s : DBState) : List (List (List Nat × MemValue)) :=
  s.mem :: ((match s.flushTable with | some ft => [ft] | none => []) ++ s.gens)

/-- First `MemValue` found across an ordered list of stages. -/
def firstLookup (k : List Nat) : List (List (List Nat × MemValue)) → Option MemValue
  | [] => none
  | m :: ms =>
    match lookupA k m with
    | some v => some v
    | none => firstLookup k ms

/-- The authoritative first hit of the staged search order. -/
def firstHit (s : DBState) (k : List Nat) : Option MemValue :=
  firstLookup k (stagesOf s)

/-- Map the first hit to the result of `get`. -/
def hitToResult : Option MemValue → Option (List Nat)
  | some (.Value v) => some v
  | some .Delete => none
  | none => none

/-- Engine operations: `put`, `delete`, a freeze (`start_flushing`,
`db.rs` lines 253-282) and one background-worker flush step
(`db.rs` lines 136-157). -/
inductive Op where
  | put (k v : List Nat)
  | del (k : List Nat)
  | freeze
  | flushStep
deriving DecidableEq, Repr

/-- One engine step.  `freeze` returns unchanged on an empty buffer
(`start_flushing` line 254); when the hand-off slot is still occupied the
caller waits until the worker has drained it (modelled by draining the
slot into a new newest generation first), then moves the buffer into the
slot.  `flushStep` drains an occupied slot into a new newest generation. -/
def applyOp (s : DBState) : Op → DBState
  | .put k v => { s with mem := insertA k (.Value v) s.mem }
  | .del k => { s with mem := insertA k .Delete s.mem }
  | .freeze =>
    if s.mem = [] then s
    else
      match s.flushTable with
      | some ft => { mem := [], flushTable := some s.mem, gens := ft :: s.gens }
      | none => { mem := [], flushTable := some s.mem, gens := s.gens }
  | .flushStep =>
    match s.flushTable with
    | some ft => { s with flushTable := none, gens := ft :: s.gens }
    | none => s

/-- Run a sequence of engine operations. -/
def runOps (s : DBState) (ops : List Op) : DBState :=
  ops.foldl applyOp s

/-- No operation in the list is a `put` to key `k`. -/
def noPutTo (k : List Nat) (ops : List Op) : Bool :=
  ops.all fun op =>
    match op with
    | .put k2 _ => decide (k2 ≠ k)
    | _ => true

/-- `DB::put` (`db.rs` lines 198-204): insert, then freeze when the size
estimate reaches `write_buffer_size`. -/
def dbPut (write_buffer_size : Nat) (s : DBState) (k v : List Nat) : DBState :=
  let s1 : DBState := { s with mem := insertA k (.Value v) s.mem }
  if write_buffer_size ≤ s1.mem.length then applyOp s1 .freeze else s1

/-- `DB::delete` (`db.rs` lines 207-213): insert a tombstone, then freeze
when the size estimate reaches `write_buffer_size`. -/
def dbDelete (write_buffer_size : Nat) (s : DBState) (k : List Nat) : DBState :=
  let s1 : DBState := { s with mem := insertA k .Delete s.mem }
  if write_buffer_size ≤ s1.mem.length then applyOp s1 .freeze else s1

/-! ### `DB::open` / `num_log_files` (`db.rs` lines 88-109) -/

/-- The state of the filesystem path handed to `DB::open`. -/
inductive PathState where
  | file
  | dirWithMeta (contents : List Nat)
  | dirNoMeta
  | absent
deriving DecidableEq, Repr

/-- `DB::num_log_files` (`db.rs` lines 88-109): a directory with METADATA
reads the 8-byte big-endian count (`read_exact` gives an I/O error when the
file is shorter); a directory without METADATA, an existing non-directory,
and a missing path without `create_if_missing` fail with
`DBNameInvalidError`; a missing path with `create_if_missing` creates the
directory and counts 0. -/
def num_log_files (ps : PathState) (create_if_missing : Bool) : Except Error Nat :=
  match ps with
  | .dirWithMeta contents =>
    if contents.length < 8 then .error .IOError
    else .ok (decodeBE (contents.take 8))
  | .file => .error .DBNameInvalidError
  | .dirNoMeta => .error .DBNameInvalidError
  | .absent =>
    if create_if_missing then .ok 0 else .error .DBNameInvalidError

/-! ### Worker flush cycle and the directory layout (`db.rs` lines 136-157) -/

/-- System state visible to the flush worker: the METADATA contents
(`none` when the file does not exist), the `(id, dt, ix)` file pairs
written so far, the engine's atomic generation counter, and the worker's
builder. -/
structure SysState where
  meta : Option (List Nat)
  disk : List (Nat × List Nat × List Nat)
  files : Nat
  builder : TableBuilder
deriving DecidableEq, Repr

/-- The state after `DB::open` on a fresh (created) directory: no
METADATA, no generation files, count 0, builder starting at file id 0. -/
def freshSys : SysState :=
  { meta := none, disk := [], files := 0, builder := TableBuilder.new 0 }

/-- One completed worker flush of a drained non-empty table
(`db.rs` lines 137-155): add every entry, `TableBuilder::flush` the two
generation files, rewrite METADATA with `file_no()` in 8-byte big-endian,
and increment the engine's generation counter. -/
def workerFlush (s : SysState) (tbl : List (List Nat × MemValue)) : SysState :=
  let tb := s.builder.addAll tbl
  let out := tb.flush
  { meta := some (beBytes 8 out.2.file_no),
    disk := s.disk ++ [out.1],
    files := s.files + 1,
    builder := out.2 }

/-- Run a sequence of completed flushes. -/
def runFlushes (s : SysState) (tbls : List (List (List Nat × MemValue))) : SysState :=
  tbls.foldl workerFlush s

/-! ### Shutdown protocol (`DB::close` / `DB::put` after close) -/

/-- Control state of the engine's shutdown protocol: the buffer content,
the hand-off slot, the `to_flush` flag of the condition-variable pair,
whether `flush_thread_handle` still holds a join handle, and whether the
background worker thread is still running. -/
structure CtrlState where
  mem : List (List Nat × MemValue)
  flushTable : Option (List (List Nat × MemValue))
  flag : Bool
  handle : Bool
  workerAlive : Bool
deriving DecidableEq, Repr

/-- `DB::close` (`db.rs` lines 217-250), with the worker's responses
played sequentially: an already-taken handle returns ok immediately;
otherwise the remaining buffer is frozen and drained, the shutdown signal
is sent, the flag is set true to wake the worker (which observes the
signal and exits without clearing the flag), and the worker is joined.
The closed state therefore has an empty buffer and slot, `flag = true`,
no join handle, and no live worker. -/
def closeModel (s : CtrlState) : Except Error Unit × CtrlState :=
  if s.handle = false then (.ok (), s)
  else
    (.ok (),
     { mem := [], flushTable := none, flag := true,
       handle := false, workerAlive := false })

/-- Outcome of `DB::put`: `ok`, an error, or blocked forever on the
condition variable. -/
inductive PutOutcome where
  | ok
  | err (e : Error)
  | blocked
deriving DecidableEq, Repr

/-- `DB::put` (`db.rs` lines 198-204) over the control state: insert into
`mem_table` (always succeeds), then, when the size estimate reaches
`write_buffer_size`, run `start_flushing`: wait while the flag is set —
with no live worker to clear it the wait never returns — then move the
buffer into the hand-off slot and set the flag. -/
def putCtrl (write_buffer_size : Nat) (s : CtrlState) (k v : List Nat) :
    PutOutcome × CtrlState :=
  let mem1 := insertA k (.Value v) s.mem
  if mem1.length < write_buffer_size then (.ok, { s with mem := mem1 })
  else
    if s.flag then
      if s.workerAlive then
        (.ok, { s with mem := [], flushTable := some mem1, flag := true })
      else (.blocked, { s with mem := mem1 })
    else (.ok, { s with mem := [], flushTable := some mem1, flag := true })

/-- A control state with the worker running and nothing pending. -/
def openCtrl : CtrlState :=
  { mem := [], flushTable := none, flag := false, handle := true, workerAlive := true }

/-- The control state left behind by a completed `close()`. -/
def closedCtrl : CtrlState :=
  { mem := [], flushTable := none, flag := true, handle := false, workerAlive := false }

theorem beBytes_length (w n : Nat) : (beBytes w n).length = w := by
  induction w generalizing n with
  | zero => rfl
  | succ w ih => simp [beBytes, ih]

theorem decodeBE_append (l₁ l₂ : List Nat) :
    decodeBE (l₁ ++ l₂) = l₂.foldl (fun acc b => acc * 256 + b) (decodeBE l₁) := by
  simp [decodeBE, List.foldl_append]

theorem decodeBE_beBytes (w n : Nat) : decodeBE (beBytes w n) = n % 256 ^ w := by
  induction w generalizing n with
  | zero => simp [beBytes, decodeBE, Nat.mod_one]
  | succ w ih =>
    have h : decodeBE (beBytes w (n / 256) ++ [n % 256])
        = decodeBE (beBytes w (n / 256)) * 256 + n % 256 := by
      simp [decodeBE_append, decodeBE]
    have h1 : n % (256 * 256 ^ w) = n % 256 + 256 * (n / 256 % 256 ^ w) :=
      Nat.mod_mul
    have h2 : (256 : Nat) ^ (w + 1) = 256 * 256 ^ w := by ring
    rw [beBytes, h, ih, h2]
    omega

theorem decodeBE_beBytes_of_lt {w n : Nat} (h : n < 256 ^ w) :
    decodeBE (beBytes w n) = n := by
  rw [decodeBE_beBytes, Nat.mod_eq_of_lt h]

theorem lookupA_eraseKey {α : Type} (k k' : List Nat) (m : List (List Nat × α)) :
    lookupA k (eraseKey k' m) = if k = k' then none else lookupA k m := by
  induction m with
  | nil => simp [eraseKey, lookupA]
  | cons p m ih =>
    by_cases h1 : p.1 = k'
    · by_cases h2 : k = k'
      · subst h2
        simp [eraseKey, h1, ih]
      · have h3 : ¬ p.1 = k := fun hk => h2 (hk.symm.trans h1)
        have h2' : ¬ k' = k := fun hk => h2 hk.symm
        simp [eraseKey, h1, ih, h2, lookupA, h3, h2']
    · by_cases h2 : p.1 = k
      · have hkk : ¬ k = k' := fun hk => h1 (h2.trans hk)
        simp [eraseKey, h1, lookupA, h2, hkk]
      · simp [eraseKey, h1, lookupA, h2, ih]

theorem lookupA_insert_self {α : Type} (k : List Nat) (v : α) (m : List (List Nat × α)) :
    lookupA k (insertA k v m) = some v := by
  simp [insertA, lookupA]

theorem lookupA_insert_ne {α : Type} {k k' : List Nat} (h : k ≠ k') (v : α)
    (m : List (List Nat × α)) :
    lookupA k (insertA k' v m) = lookupA k m := by
  have h' : ¬ k' = k := fun hk => h hk.symm
  simp [insertA, lookupA, h', lookupA_eraseKey, h]

theorem lookupA_eq_none_of_not_mem {α : Type} {k : List Nat} {m : List (List Nat × α)}
    (h : k ∉ keysOf m) : lookupA k m = none := by
  induction m with
  | nil => rfl
  | cons p m ih =>
    have hx : keysOf (p :: m) = p.1 :: keysOf m := rfl
    rw [hx] at h
    have h1 : ¬ p.1 = k := fun hk => h (by rw [hk]; exact List.mem_cons_self _ _)
    rw [lookupA, if_neg h1]
    exact ih (fun hk => h (List.mem_cons_of_mem _ hk))

theorem dataBytes_length (es : List (List Nat × MemValue)) :
    (dataBytes es).length = totalSize es := by
  induction es with
  | nil => rfl
  | cons e es ih =>
    cases h : e.2
    · simp [dataBytes, totalSize, entryDataBytes, entrySize, TableBuilder.encode,
        beBytes_length, h, ih]
      omega
    · simp [dataBytes, totalSize, entryDataBytes, entrySize, h, ih]

theorem add_index (tb : TableBuilder) (k : List Nat) (v : MemValue) :
    (tb.add k v).index = tb.index ++ entryIndexBytes tb.offset k v := by
  cases v <;>
    simp [TableBuilder.add, entryIndexBytes, TableBuilder.encode, MemValue.encode]

theorem add_data (tb : TableBuilder) (k : List Nat) (v : MemValue) :
    (tb.add k v).data = tb.data ++ entryDataBytes v := by
  cases v <;> simp [TableBuilder.add, entryDataBytes, TableBuilder.encode]

theorem add_offset (tb : TableBuilder) (k : List Nat) (v : MemValue) :
    (tb.add k v).offset = tb.offset + entrySize v := by
  cases v
  · simp [TableBuilder.add, entrySize]
    omega
  · simp [TableBuilder.add, entrySize]

theorem add_file_no (tb : TableBuilder) (k : List Nat) (v : MemValue) :
    (tb.add k v).file_no = tb.file_no := by
  cases v <;> simp [TableBuilder.add]

theorem addAll_spec (es : List (List Nat × MemValue)) (tb : TableBuilder) :
    (tb.addAll es).index = tb.index ++ indexBytesFrom tb.offset es ∧
    (tb.addAll es).data = tb.data ++ dataBytes es ∧
    (tb.addAll es).offset = tb.offset + totalSize es ∧
    (tb.addAll es).file_no = tb.file_no := by
  induction es generalizing tb with
  | nil => simp [TableBuilder.addAll, indexBytesFrom, dataBytes, totalSize]
  | cons e es ih =>
    obtain ⟨k, v⟩ := e
    have step : TableBuilder.addAll tb ((k, v) :: es)
        = TableBuilder.addAll (tb.add k v) es := rfl
    rw [step]
    rcases ih (tb.add k v) with ⟨h1, h2, h3, h4⟩
    rw [h1, h2, h3, h4, add_index, add_data, add_offset, add_file_no]
    refine ⟨?_, ?_, ?_, rfl⟩ <;>
      simp [indexBytesFrom, dataBytes, totalSize, List.append_assoc, Nat.add_assoc]

/-! ### Facts about `decode` -/

theorem decodeFuel_short (file : List Nat) (pos : Nat)
    (h : file.length < pos + 8) (fuel : Nat) :
    decodeFuel fuel file pos = some (.error .IOError) := by
  simp [decodeFuel, h]

theorem decodeFuel_success (file : List Nat) (pos : Nat)
    (h8 : pos + 8 ≤ file.length)
    (hsz : pos + 8 + decodeBE ((file.drop pos).take 8) ≤ file.length)
    (fuel : Nat) :
    decodeFuel (fuel + 1) file pos
      = some (.ok ((file.drop (pos + 8)).take (decodeBE ((file.drop pos).take 8)))) := by
  have hlt : ¬ file.length < pos + 8 := by omega
  have hc : decodeBE ((file.drop pos).take 8) ≤ file.length - (pos + 8) := by
    omega
  simp only [decodeFuel, hlt, if_false]
  simp [readLoop, hc]

theorem readLoop_diverges (file : List Nat) (pos size : Nat)
    (hshort : file.length - (pos + 8) < size) :
    ∀ fuel got, got ≤ file.length - (pos + 8) →
      readLoop file pos size fuel got = none := by
  intro fuel
  induction fuel with
  | zero => intro got _; rfl
  | succ fuel ih =>
    intro got hgot
    have hrb : min (size - got) (file.length - (pos + 8) - got)
        = file.length - (pos + 8) - got := by omega
    have hno : ¬ size ≤ got + min (size - got) (file.length - (pos + 8) - got) := by
      omega
    simp only [readLoop, hno, if_false]
    exact ih _ (by omega)

theorem decodeFuel_diverges (file : List Nat) (pos : Nat)
    (h8 : pos + 8 ≤ file.length)
    (hshort : file.length < pos + 8 + decodeBE ((file.drop pos).take 8)) :
    decodeDiverges file pos := by
  intro fuel
  have hlt : ¬ file.length < pos + 8 := by omega
  simp only [decodeFuel, hlt, if_false]
  rw [readLoop_diverges file pos _ (by omega) fuel 0 (by omega)]

/-! ### List slicing helpers -/

theorem take_app {α : Type} (n : Nat) (l₁ l₂ : List α) (h : l₁.length = n) :
    (l₁ ++ l₂).take n = l₁ := by
  subst h
  induction l₁ with
  | nil => simp
  | cons a l ih => simp [ih]

theorem drop_app {α : Type} (n : Nat) (l₁ l₂ : List α) (h : l₁.length = n) :
    (l₁ ++ l₂).drop n = l₂ := by
  subst h
  induction l₁ with
  | nil => simp
  | cons a l ih => simp [ih]

theorem keysOf_ixEntries (off : Nat) (es : List (List Nat × MemValue)) :
    keysOf (ixEntries off es) = keysOf es := by
  induction es generalizing off with
  | nil => rfl
  | cons e es ih =>
    obtain ⟨k, v⟩ := e
    cases v <;> simp [ixEntries, keysOf] at * <;> exact ih _

theorem parse_step_value (k v rest : List Nat) (acc : List (List Nat × IndexValue))
    (off : Nat) (hk : k.length < 2 ^ 64) (hoff : off < 2 ^ 64) :
    parseIndexAux acc (entryIndexBytes off k (.Value v) ++ rest)
      = parseIndexAux (insertA k (.Offset off) acc) rest := by
  have h256 : (256 : Nat) ^ 8 = 2 ^ 64 := by norm_num
  have hkd : decodeBE (beBytes 8 k.length) = k.length :=
    decodeBE_beBytes_of_lt (by omega)
  have hod : decodeBE (beBytes 8 off) = off :=
    decodeBE_beBytes_of_lt (by omega)
  rw [parseIndexAux]
  have hshape : entryIndexBytes off k (.Value v) ++ rest
      = beBytes 8 k.length ++ (k ++ ([0] ++ (beBytes 8 off ++ rest))) := by
    simp [entryIndexBytes, List.append_assoc]
  rw [hshape]
  have hlen : (beBytes 8 k.length ++ (k ++ ([0] ++ (beBytes 8 off ++ rest)))).length
      = 8 + k.length + 1 + 8 + rest.length := by
    simp [beBytes_length]
    omega
  have hne : beBytes 8 k.length ++ (k ++ ([0] ++ (beBytes 8 off ++ rest))) ≠ [] := by
    intro hcon
    have := congrArg List.length hcon
    simp [hlen] at this
  rw [if_neg hne]
  have h8 : ¬ (beBytes 8 k.length ++ (k ++ ([0] ++ (beBytes 8 off ++ rest)))).length < 8 := by
    rw [hlen]; omega
  rw [if_neg h8]
  have htake : (beBytes 8 k.length ++ (k ++ ([0] ++ (beBytes 8 off ++ rest)))).take 8
      = beBytes 8 k.length := take_app _ _ _ (beBytes_length 8 _)
  rw [htake, hkd]
  have hks : ¬ (beBytes 8 k.length ++ (k ++ ([0] ++ (beBytes 8 off ++ rest)))).length
      < 8 + k.length := by
    rw [hlen]; omega
  rw [if_neg hks]
  have hdrop8 : (beBytes 8 k.length ++ (k ++ ([0] ++ (beBytes 8 off ++ rest)))).drop 8
      = k ++ ([0] ++ (beBytes 8 off ++ rest)) := drop_app _ _ _ (beBytes_length 8 _)
  have hkey : ((beBytes 8 k.length ++ (k ++ ([0] ++ (beBytes 8 off ++ rest)))).drop 8).take k.length
      = k := by
    rw [hdrop8]; exact take_app _ _ _ rfl
  have hrest : (beBytes 8 k.length ++ (k ++ ([0] ++ (beBytes 8 off ++ rest)))).drop (8 + k.length)
      = [0] ++ (beBytes 8 off ++ rest) := by
    have hassoc : beBytes 8 k.length ++ (k ++ ([0] ++ (beBytes 8 off ++ rest)))
        = (beBytes 8 k.length ++ k) ++ ([0] ++ (beBytes 8 off ++ rest)) := by
      simp [List.append_assoc]
    rw [hassoc]
    exact drop_app _ _ _ (by simp [beBytes_length])
  rw [hkey, hrest]
  have hr0 : ¬ ([0] ++ (beBytes 8 off ++ rest)).length = 0 := by simp
  rw [dif_neg hr0]
  have hhead : ([0] ++ (beBytes 8 off ++ rest)).headD 0 = 0 := rfl
  have htail : ([0] ++ (beBytes 8 off ++ rest)).tail = beBytes 8 off ++ rest := rfl
  rw [hhead, htail]
  rw [if_pos rfl]
  have hr8 : ¬ (beBytes 8 off ++ rest).length < 8 := by
    simp [beBytes_length]
  rw [if_neg hr8]
  have hot : (beBytes 8 off ++ rest).take 8 = beBytes 8 off :=
    take_app _ _ _ (beBytes_length 8 _)
  have hod8 : (beBytes 8 off ++ rest).drop 8 = rest :=
    drop_app _ _ _ (beBytes_length 8 _)
  rw [hot, hod, hod8]

theorem parse_step_delete (k rest : List Nat) (acc : List (List Nat × IndexValue))
    (off : Nat) (hk : k.length < 2 ^ 64) :
    parseIndexAux acc (entryIndexBytes off k .Delete ++ rest)
      = parseIndexAux (insertA k .Delete acc) rest := by
  have h256 : (256 : Nat) ^ 8 = 2 ^ 64 := by norm_num
  have hkd : decodeBE (beBytes 8 k.length) = k.length :=
    decodeBE_beBytes_of_lt (by omega)
  rw [parseIndexAux]
  have hshape : entryIndexBytes off k .Delete ++ rest
      = beBytes 8 k.length ++ (k ++ ([1] ++ rest)) := by
    simp [entryIndexBytes, List.append_assoc]
  rw [hshape]
  have hlen : (beBytes 8 k.length ++ (k ++ ([1] ++ rest))).length
      = 8 + k.length + 1 + rest.length := by
    simp [beBytes_length]
    omega
  have hne : beBytes 8 k.length ++ (k ++ ([1] ++ rest)) ≠ [] := by
    intro hcon
    have := congrArg List.length hcon
    simp [hlen] at this
  rw [if_neg hne]
  have h8 : ¬ (beBytes 8 k.length ++ (k ++ ([1] ++ rest))).length < 8 := by
    rw [hlen]; omega
  rw [if_neg h8]
  have htake : (beBytes 8 k.length ++ (k ++ ([1] ++ rest))).take 8
      = beBytes 8 k.length := take_app _ _ _ (beBytes_length 8 _)
  rw [htake, hkd]
  have hks : ¬ (beBytes 8 k.length ++ (k ++ ([1] ++ rest))).length < 8 + k.length := by
    rw [hlen]; omega
  rw [if_neg hks]
  have hdrop8 : (beBytes 8 k.length ++ (k ++ ([1] ++ rest))).drop 8
      = k ++ ([1] ++ rest) := drop_app _ _ _ (beBytes_length 8 _)
  have hkey : ((beBytes 8 k.length ++ (k ++ ([1] ++ rest))).drop 8).take k.length = k := by
    rw [hdrop8]; exact take_app _ _ _ rfl
  have hrest : (beBytes 8 k.length ++ (k ++ ([1] ++ rest))).drop (8 + k.length)
      = [1] ++ rest := by
    have hassoc : beBytes 8 k.length ++ (k ++ ([1] ++ rest))
        = (beBytes 8 k.length ++ k) ++ ([1] ++ rest) := by
      simp [List.append_assoc]
    rw [hassoc]
    exact drop_app _ _ _ (by simp [beBytes_length])
  rw [hkey, hrest]
  have hr0 : ¬ ([1] ++ rest).length = 0 := by simp
  rw [dif_neg hr0]
  have hhead : ([1] ++ rest).headD 0 = 1 := rfl
  have htail : ([1] ++ rest).tail = rest := rfl
  rw [hhead, htail]
  norm_num

theorem parse_spec (es : List (List Nat × MemValue)) (acc : List (List Nat × IndexValue))
    (off : Nat) (hk : ∀ p ∈ es, p.1.length < 2 ^ 64)
    (hoff : off + totalSize es ≤ 2 ^ 64) :
    parseIndexAux acc (indexBytesFrom off es) = .ok (insFold acc (ixEntries off es)) := by
  induction es generalizing acc off with
  | nil => simp [indexBytesFrom, parseIndexAux, ixEntries, insFold]
  | cons e es ih =>
    obtain ⟨k, v⟩ := e
    cases v with
    | Value val =>
      have hk1 : k.length < 2 ^ 64 := hk (k, .Value val) (List.mem_cons_self _ _)
      have hsz : totalSize ((k, MemValue.Value val) :: es)
          = 8 + val.length + totalSize es := by
        simp [totalSize, entrySize]
      rw [indexBytesFrom]
      have he : entrySize (k, MemValue.Value val).2 = 8 + val.length := rfl
      rw [he]
      rw [parse_step_value k val _ acc off hk1 (by rw [hsz] at hoff; omega)]
      rw [ih _ _ (fun p hp => hk p (List.mem_cons_of_mem _ hp))
        (by rw [hsz] at hoff; omega)]
      simp [ixEntries, insFold, Nat.add_assoc]
    | Delete =>
      have hk1 : k.length < 2 ^ 64 := hk (k, .Delete) (List.mem_cons_self _ _)
      have hsz : totalSize ((k, MemValue.Delete) :: es) = totalSize es := by
        simp [totalSize, entrySize]
      rw [indexBytesFrom]
      have he : entrySize (k, MemValue.Delete).2 = 0 := rfl
      rw [he]
      rw [parse_step_delete k _ acc off hk1]
      rw [ih _ _ (fun p hp => hk p (List.mem_cons_of_mem _ hp))
        (by rw [hsz] at hoff; omega)]
      simp [ixEntries, insFold]

theorem lookupA_insFold (l : List (List Nat × IndexValue))
    (acc : List (List Nat × IndexValue)) (k : List Nat)
    (hnd : (keysOf l).Nodup) :
    lookupA k (insFold acc l)
      = match lookupA k l with
        | some v => some v
        | none => lookupA k acc := by
  induction l generalizing acc with
  | nil => simp [insFold, lookupA]
  | cons p l ih =>
    have hx : keysOf (p :: l) = p.1 :: keysOf l := rfl
    rw [hx] at hnd
    rcases List.nodup_cons.mp hnd with ⟨hp, hnd'⟩
    have hstep : insFold acc (p :: l) = insFold (insertA p.1 p.2 acc) l := rfl
    rw [hstep, ih _ hnd']
    by_cases hpk : p.1 = k
    · have hnone : lookupA k l = none := by
        apply lookupA_eq_none_of_not_mem
        rw [← hpk]
        exact hp
      rw [hnone]
      simp [lookupA, hpk, hpk ▸ lookupA_insert_self p.1 p.2 acc]
    · have hne : k ≠ p.1 := fun hk => hpk hk.symm
      rw [lookupA_insert_ne hne]
      simp [lookupA, hpk]

theorem entry_size_le_totalSize (es : List (List Nat × MemValue)) (k v : List Nat)
    (hmem : (k, MemValue.Value v) ∈ es) : 8 + v.length ≤ totalSize es := by
  induction es with
  | nil => cases hmem
  | cons e es ih =>
    rcases List.mem_cons.mp hmem with he | ht
    · rw [← he]
      simp [totalSize, entrySize]
    · have := ih ht
      have h0 : 0 ≤ entrySize e.2 := Nat.zero_le _
      simp [totalSize]
      omega

theorem lookup_ix_value (es : List (List Nat × MemValue)) (off : Nat)
    (k v : List Nat) (hnd : (keysOf es).Nodup)
    (hmem : (k, MemValue.Value v) ∈ es) :
    ∃ pre suf, dataBytes es = pre ++ (TableBuilder.encode v ++ suf) ∧
      lookupA k (ixEntries off es) = some (.Offset (off + pre.length)) := by
  induction es generalizing off with
  | nil => cases hmem
  | cons e es ih =>
    obtain ⟨k0, v0⟩ := e
    have hx : keysOf ((k0, v0) :: es) = k0 :: keysOf es := rfl
    rw [hx] at hnd
    rcases List.nodup_cons.mp hnd with ⟨hp, hnd'⟩
    rcases List.mem_cons.mp hmem with he | ht
    · have hk0 : k0 = k := congrArg Prod.fst he.symm
      have hv0 : v0 = MemValue.Value v := congrArg Prod.snd he.symm
      subst hk0
      subst hv0
      refine ⟨[], dataBytes es, ?_, ?_⟩
      · simp [dataBytes, entryDataBytes]
      · simp [ixEntries, lookupA]
    · have hkk : k ∈ keysOf es := by
        have : (k, MemValue.Value v).1 ∈ keysOf es := List.mem_map_of_mem _ ht
        exact this
      have hk0 : ¬ k0 = k := fun hk => hp (hk ▸ hkk)
      cases v0 with
      | Value val0 =>
        rcases ih (off + (8 + val0.length)) hnd' ht with ⟨pre, suf, hdata, hlook⟩
        refine ⟨TableBuilder.encode val0 ++ pre, suf, ?_, ?_⟩
        · simp [dataBytes, entryDataBytes, hdata, List.append_assoc]
        · rw [ixEntries, lookupA, if_neg hk0, hlook]
          have hlen : off + (8 + val0.length) + pre.length
              = off + (TableBuilder.encode val0 ++ pre).length := by
            simp [TableBuilder.encode, beBytes_length]
            omega
          rw [hlen]
      | Delete =>
        rcases ih off hnd' ht with ⟨pre, suf, hdata, hlook⟩
        refine ⟨pre, suf, ?_, ?_⟩
        · simp [dataBytes, entryDataBytes, hdata]
        · rw [ixEntries, lookupA, if_neg hk0, hlook]

theorem lookup_ix_delete (es : List (List Nat × MemValue)) (off : Nat)
    (k : List Nat) (hnd : (keysOf es).Nodup)
    (hmem : (k, MemValue.Delete) ∈ es) :
    lookupA k (ixEntries off es) = some .Delete := by
  induction es generalizing off with
  | nil => cases hmem
  | cons e es ih =>
    obtain ⟨k0, v0⟩ := e
    have hx : keysOf ((k0, v0) :: es) = k0 :: keysOf es := rfl
    rw [hx] at hnd
    rcases List.nodup_cons.mp hnd with ⟨hp, hnd'⟩
    rcases List.mem_cons.mp hmem with he | ht
    · have hk0 : k0 = k := congrArg Prod.fst he.symm
      have hv0 : v0 = MemValue.Delete := congrArg Prod.snd he.symm
      subst hk0
      subst hv0
      simp [ixEntries, lookupA]
    · have hkk : k ∈ keysOf es := by
        have : (k, MemValue.Delete).1 ∈ keysOf es := List.mem_map_of_mem _ ht
        exact this
      have hk0 : ¬ k0 = k := fun hk => hp (hk ▸ hkk)
      cases v0 <;> rw [ixEntries, lookupA, if_neg hk0] <;> exact ih _ hnd' ht

theorem decode_at_encode (pre v suf : List Nat) (hv : v.length < 2 ^ 64) :
    decodeFuel 1 (pre ++ (TableBuilder.encode v ++ suf)) pre.length
      = some (.ok v) := by
  have h256 : (256 : Nat) ^ 8 = 2 ^ 64 := by norm_num
  have hlen : (pre ++ (TableBuilder.encode v ++ suf)).length
      = pre.length + (8 + v.length + suf.length) := by
    simp [TableBuilder.encode, beBytes_length]
    omega
  have hdrop : (pre ++ (TableBuilder.encode v ++ suf)).drop pre.length
      = TableBuilder.encode v ++ suf := drop_app _ _ _ rfl
  have henc : TableBuilder.encode v ++ suf = beBytes 8 v.length ++ (v ++ suf) := by
    simp [TableBuilder.encode, List.append_assoc]
  have hsize : decodeBE (((pre ++ (TableBuilder.encode v ++ suf)).drop pre.length).take 8)
      = v.length := by
    rw [hdrop, henc, take_app _ _ _ (beBytes_length 8 _)]
    exact decodeBE_beBytes_of_lt (by omega)
  have hres := decodeFuel_success (pre ++ (TableBuilder.encode v ++ suf)) pre.length
    (by rw [hlen]; omega) (by rw [hsize, hlen]; omega) 0
  rw [hsize] at hres
  rw [hres]
  have hassoc : pre ++ (TableBuilder.encode v ++ suf)
      = (pre ++ beBytes 8 v.length) ++ (v ++ suf) := by
    simp [TableBuilder.encode, List.append_assoc]
  have hdrop8 : (pre ++ (TableBuilder.encode v ++ suf)).drop (pre.length + 8)
      = v ++ suf := by
    rw [hassoc]
    exact drop_app _ _ _ (by simp [beBytes_length])
  rw [hdrop8, take_app _ _ _ rfl]

theorem lookupA_insFold_nil (l : List (List Nat × IndexValue)) (k : List Nat)
    (hnd : (keysOf l).Nodup) :
    lookupA k (insFold [] l) = lookupA k l := by
  rw [lookupA_insFold l [] k hnd]
  cases lookupA k l <;> rfl

/-- Round trip through one generation: feed entries to the builder, flush,
open the written index, and read every key back.  Shared workhorse. -/
theorem round_trip (entries : List (List Nat × MemValue))
    (hnd : (keysOf entries).Nodup)
    (hk : ∀ p ∈ entries, p.1.length < 2 ^ 64)
    (hsz : totalSize entries < 2 ^ 64) :
    ∃ t, Table.openModel ((TableBuilder.new 0).addAll entries).index
        ((TableBuilder.new 0).addAll entries).data = some (.ok t) ∧
      (∀ k v, (k, MemValue.Value v) ∈ entries →
        Table.getFuel 1 t k = some (.ok (some (.Value v)))) ∧
      (∀ k, (k, MemValue.Delete) ∈ entries →
        Table.getFuel 1 t k = some (.ok (some .Delete))) ∧
      (∀ k, k ∉ keysOf entries → Table.getFuel 1 t k = some (.ok none)) := by
  rcases addAll_spec entries (TableBuilder.new 0) with ⟨hix, hdt, _, _⟩
  have hix' : ((TableBuilder.new 0).addAll entries).index = indexBytesFrom 0 entries := by
    rw [hix]; rfl
  have hdt' : ((TableBuilder.new 0).addAll entries).data = dataBytes entries := by
    rw [hdt]; rfl
  have hparse : parseIndexAux [] (indexBytesFrom 0 entries)
      = .ok (insFold [] (ixEntries 0 entries)) :=
    parse_spec entries [] 0 hk (by omega)
  have hndix : (keysOf (ixEntries 0 entries)).Nodup := by
    rw [keysOf_ixEntries]; exact hnd
  refine ⟨{ index := insFold [] (ixEntries 0 entries), dataFile := dataBytes entries },
    ?_, ?_, ?_, ?_⟩
  · rw [hix', hdt', Table.openModel, hparse]
  · intro k v hmem
    rcases lookup_ix_value entries 0 k v hnd hmem with ⟨pre, suf, hdata, hlook⟩
    have hvlen : v.length < 2 ^ 64 := by
      have := entry_size_le_totalSize entries k v hmem
      omega
    rw [Table.getFuel]
    rw [lookupA_insFold_nil _ _ hndix, hlook]
    have hoff : (0 : Nat) + pre.length = pre.length := by omega
    rw [hoff]
    have hdec : decodeFuel 1 (dataBytes entries) pre.length = some (.ok v) := by
      rw [hdata]
      exact decode_at_encode pre v suf hvlen
    dsimp only
    rw [hdec]
  · intro k hmem
    rw [Table.getFuel]
    rw [lookupA_insFold_nil _ _ hndix, lookup_ix_delete entries 0 k hnd hmem]
  · intro k hmem
    rw [Table.getFuel]
    have hnone : lookupA k (ixEntries 0 entries) = none := by
      apply lookupA_eq_none_of_not_mem
      rw [keysOf_ixEntries]
      exact hmem
    rw [lookupA_insFold_nil _ _ hndix, hnone]

/-! ### Search-order facts -/

theorem gensGet_eq_firstLookup (k : List Nat)
    (gs : List (List (List Nat × MemValue))) :
    gensGet k gs = hitToResult (firstLookup k gs) := by
  induction gs with
  | nil => rfl
  | cons g gs ih =>
    cases hg : lookupA k g with
    | some v => cases v <;> simp [gensGet, firstLookup, hg, hitToResult]
    | none => simp [gensGet, firstLookup, hg, ih]

theorem get_eq_hit (s : DBState) (k : List Nat) :
    s.get k = hitToResult (firstHit s k) := by
  rw [DBState.get, firstHit, stagesOf]
  cases hm : lookupA k s.mem with
  | some v => cases v <;> simp [firstLookup, hm, hitToResult]
  | none =>
    cases hs : s.flushTable with
    | none => simp [firstLookup, hm, gensGet_eq_firstLookup]
    | some ft =>
      cases hf : lookupA k ft with
      | some v => cases v <;> simp [firstLookup, hm, hf, hitToResult]
      | none => simp [firstLookup, hm, hf, gensGet_eq_firstLookup]

theorem firstHit_after_del (s : DBState) (k : List Nat) :
    firstHit (applyOp s (.del k)) k = some .Delete := by
  simp [applyOp, firstHit, stagesOf, firstLookup, lookupA_insert_self]

theorem firstHit_preserved (s : DBState) (op : Op) (k : List Nat)
    (hop : ∀ v, op ≠ .put k v)
    (hhit : firstHit s k = some .Delete) :
    firstHit (applyOp s op) k = some .Delete := by
  cases op with
  | put k2 v =>
    have hne : k ≠ k2 := by
      intro hk
      exact hop v (by rw [hk])
    rw [firstHit, stagesOf] at hhit ⊢
    simp only [applyOp]
    rw [firstLookup, lookupA_insert_ne hne]
    rw [firstLookup] at hhit
    exact hhit
  | del k2 =>
    by_cases hk : k2 = k
    · subst hk
      exact firstHit_after_del s k2
    · have hne : k ≠ k2 := fun h => hk h.symm
      rw [firstHit, stagesOf] at hhit ⊢
      simp only [applyOp]
      rw [firstLookup, lookupA_insert_ne hne]
      rw [firstLookup] at hhit
      exact hhit
  | freeze =>
    by_cases hm : s.mem = []
    · simp [applyOp, hm, hhit]
    · cases hs : s.flushTable with
      | some ft =>
        rw [firstHit, stagesOf] at hhit ⊢
        rw [hs] at hhit
        simp only [applyOp, if_neg hm, hs]
        rw [firstLookup]
        dsimp only [lookupA]
        simp only [List.singleton_append, List.cons_append, List.nil_append] at hhit ⊢
        exact hhit
      | none =>
        rw [firstHit, stagesOf] at hhit ⊢
        rw [hs] at hhit
        simp only [applyOp, if_neg hm, hs]
        rw [firstLookup]
        dsimp only [lookupA]
        simp only [List.singleton_append, List.cons_append, List.nil_append] at hhit ⊢
        exact hhit
  | flushStep =>
    cases hs : s.flushTable with
    | some ft =>
      rw [firstHit, stagesOf] at hhit ⊢
      rw [hs] at hhit
      simp only [applyOp, hs]
      simpa using hhit
    | none =>
      simp only [applyOp, hs]
      exact hhit

theorem firstHit_runOps (s : DBState) (ops : List Op) (k : List Nat)
    (hnp : noPutTo k ops = true)
    (hhit : firstHit s k = some .Delete) :
    firstHit (runOps s ops) k = some .Delete := by
  induction ops generalizing s with
  | nil => exact hhit
  | cons op ops ih =>
    have hstep : runOps s (op :: ops) = runOps (applyOp s op) ops := rfl
    rw [hstep]
    have hnp' : noPutTo k ops = true := by
      simp [noPutTo, List.all_cons] at hnp ⊢
      exact hnp.2
    have hop : ∀ v, op ≠ .put k v := by
      intro v heq
      subst heq
      simp [noPutTo, List.all_cons] at hnp
    exact ih _ hnp' (firstHit_preserved s op k hop hhit)

/-! ### Flush-cycle facts -/

theorem workerFlush_fields (s : SysState) (t : List (List Nat × MemValue)) :
    (workerFlush s t).files = s.files + 1 ∧
    (workerFlush s t).builder.file_no = s.builder.file_no + 1 ∧
    (workerFlush s t).disk
      = s.disk ++ [(s.builder.file_no, (s.builder.addAll t).data,
          (s.builder.addAll t).index)] ∧
    (workerFlush s t).meta = some (beBytes 8 (s.builder.file_no + 1)) := by
  have h4 := (addAll_spec t s.builder).2.2.2
  refine ⟨rfl, ?_, ?_, ?_⟩ <;>
    simp [workerFlush, TableBuilder.flush, h4]

theorem runFlushes_spec (tbls : List (List (List Nat × MemValue))) (s : SysState) :
    (runFlushes s tbls).files = s.files + tbls.length ∧
    (runFlushes s tbls).builder.file_no = s.builder.file_no + tbls.length ∧
    (runFlushes s tbls).disk.map Prod.fst
      = s.disk.map Prod.fst ++ List.range' s.builder.file_no tbls.length ∧
    (runFlushes s tbls).meta
      = if tbls.length = 0 then s.meta
        else some (beBytes 8 (s.builder.file_no + tbls.length)) := by
  induction tbls generalizing s with
  | nil => simp [runFlushes]
  | cons t tbls ih =>
    have hstep : runFlushes s (t :: tbls) = runFlushes (workerFlush s t) tbls := rfl
    rw [hstep]
    rcases ih (workerFlush s t) with ⟨h1, h2, h3, h4⟩
    rcases workerFlush_fields s t with ⟨w1, w2, w3, w4⟩
    refine ⟨?_, ?_, ?_, ?_⟩
    · rw [h1, w1]
      simp only [List.length_cons]
      omega
    · rw [h2, w2]
      simp only [List.length_cons]
      omega
    · rw [h3, w3, w2]
      have hr : List.range' s.builder.file_no (tbls.length + 1)
          = s.builder.file_no :: List.range' (s.builder.file_no + 1) tbls.length :=
        List.range'_succ _ _ _
      simp [hr, List.length_cons]
    · rw [h4, w4, w2]
      have hadd : s.builder.file_no + 1 + tbls.length
          = s.builder.file_no + (tbls.length + 1) := by omega
      by_cases hl : tbls.length = 0
      · simp [hl]
      · simp [hl, List.length_cons, hadd]

/-! ### Size-estimate facts (`MemTable::size`) -/

theorem eraseKey_not_mem {α : Type} (k : List Nat)
    (m : List (List Nat × α)) (h : k ∉ keysOf m) :
    eraseKey k m = m := by
  induction m with
  | nil => rfl
  | cons p m ih =>
    have hx : keysOf (p :: m) = p.1 :: keysOf m := rfl
    rw [hx] at h
    have h1 : ¬ p.1 = k := fun hk => h (by rw [hk]; exact List.mem_cons_self _ _)
    rw [eraseKey, if_neg h1, ih (fun hk => h (List.mem_cons_of_mem _ hk))]

theorem eraseKey_length_mem {α : Type} (k : List Nat)
    (m : List (List Nat × α)) (hnd : (keysOf m).Nodup) (h : k ∈ keysOf m) :
    (eraseKey k m).length + 1 = m.length := by
  induction m with
  | nil => cases h
  | cons p m ih =>
    have hx : keysOf (p :: m) = p.1 :: keysOf m := rfl
    rw [hx] at h hnd
    rcases List.nodup_cons.mp hnd with ⟨hp, hnd'⟩
    rcases List.mem_cons.mp h with he | ht
    · rw [eraseKey, if_pos he.symm]
      rw [eraseKey_not_mem k m (he ▸ hp)]
      simp
    · have h1 : ¬ p.1 = k := fun hk => hp (hk ▸ ht)
      rw [eraseKey, if_neg h1]
      simp only [List.length_cons]
      rw [← ih hnd' ht]

theorem eraseKey_length_le {α : Type} (k : List Nat) (m : List (List Nat × α)) :
    (eraseKey k m).length ≤ m.length := by
  induction m with
  | nil => exact Nat.le_refl _
  | cons p m ih =>
    rw [eraseKey]
    by_cases h1 : p.1 = k
    · rw [if_pos h1]
      exact Nat.le_trans ih (by simp)
    · rw [if_neg h1]
      simp only [List.length_cons]
      omega

theorem keysOf_eraseKey_sub {α : Type} (k : List Nat) (m : List (List Nat × α)) :
    keysOf (eraseKey k m) ⊆ keysOf m := by
  induction m with
  | nil => intro x hx; cases hx
  | cons p m ih =>
    intro x hx
    rw [eraseKey] at hx
    by_cases hq : p.1 = k
    · rw [if_pos hq] at hx
      exact List.mem_cons_of_mem _ (ih hx)
    · rw [if_neg hq] at hx
      have hxx : keysOf (p :: eraseKey k m) = p.1 :: keysOf (eraseKey k m) := rfl
      rw [hxx] at hx
      rcases List.mem_cons.mp hx with he | ht
      · rw [he]
        exact List.mem_cons_self _ _
      · exact List.mem_cons_of_mem _ (ih ht)

theorem not_mem_keysOf_eraseKey {α : Type} (k : List Nat) (m : List (List Nat × α)) :
    k ∉ keysOf (eraseKey k m) := by
  induction m with
  | nil => intro hx; cases hx
  | cons p m ih =>
    intro hx
    rw [eraseKey] at hx
    by_cases hq : p.1 = k
    · rw [if_pos hq] at hx
      exact ih hx
    · rw [if_neg hq] at hx
      have hxx : keysOf (p :: eraseKey k m) = p.1 :: keysOf (eraseKey k m) := rfl
      rw [hxx] at hx
      rcases List.mem_cons.mp hx with he | ht
      · exact hq he.symm
      · exact ih ht

theorem nodup_keysOf_eraseKey {α : Type} (k : List Nat) (m : List (List Nat × α))
    (hnd : (keysOf m).Nodup) : (keysOf (eraseKey k m)).Nodup := by
  induction m with
  | nil => exact hnd
  | cons p m ih =>
    have hx : keysOf (p :: m) = p.1 :: keysOf m := rfl
    rw [hx] at hnd
    rcases List.nodup_cons.mp hnd with ⟨hp, hnd'⟩
    rw [eraseKey]
    by_cases hq : p.1 = k
    · rw [if_pos hq]
      exact ih hnd'
    · rw [if_neg hq]
      have hxx : keysOf (p :: eraseKey k m) = p.1 :: keysOf (eraseKey k m) := rfl
      rw [hxx]
      exact List.nodup_cons.mpr
        ⟨fun hc => hp (keysOf_eraseKey_sub k m hc), ih hnd'⟩

theorem keysOf_insertA_nodup {α : Type} (k : List Nat) (v : α)
    (m : List (List Nat × α)) (hnd : (keysOf m).Nodup) :
    (keysOf (insertA k v m)).Nodup := by
  have hx : keysOf (insertA k v m) = k :: keysOf (eraseKey k m) := rfl
  rw [hx]
  exact List.nodup_cons.mpr ⟨not_mem_keysOf_eraseKey k m, nodup_keysOf_eraseKey k m hnd⟩

theorem insertA_length_new {α : Type} (k : List Nat) (v : α)
    (m : List (List Nat × α)) (h : k ∉ keysOf m) :
    (insertA k v m).length = m.length + 1 := by
  simp [insertA, eraseKey_not_mem k m h]

theorem insertA_length_mem {α : Type} (k : List Nat) (v : α)
    (m : List (List Nat × α)) (hnd : (keysOf m).Nodup) (h : k ∈ keysOf m) :
    (insertA k v m).length = m.length := by
  have hx : (insertA k v m).length = (eraseKey k m).length + 1 := by
    simp [insertA]
  rw [hx, eraseKey_length_mem k m hnd h]

theorem insertA_length_ge {α : Type} (k : List Nat) (v : α)
    (m : List (List Nat × α)) (hnd : (keysOf m).Nodup) :
    m.length ≤ (insertA k v m).length := by
  by_cases h : k ∈ keysOf m
  · rw [insertA_length_mem k v m hnd h]
  · rw [insertA_length_new k v m h]
    omega

/-! ### Entry-shape parsing lemma -/

theorem parse_at_entry (k : List Nat) (tail : List Nat)
    (acc : List (List Nat × IndexValue)) (hk : k.length < 2 ^ 64) :
    parseIndexAux acc (TableBuilder.encode k ++ tail)
      = (match tail with
         | [] => .crash
         | tag :: rest2 =>
           if tag = 0 then
             if rest2.length < 8 then ParseOutcome.crash
             else parseIndexAux
               (insertA k (.Offset (decodeBE (rest2.take 8))) acc) (rest2.drop 8)
           else if tag = 1 then parseIndexAux (insertA k .Delete acc) rest2
           else .corrupt) := by
  have h256 : (256 : Nat) ^ 8 = 2 ^ 64 := by norm_num
  have hkd : decodeBE (beBytes 8 k.length) = k.length :=
    decodeBE_beBytes_of_lt (by omega)
  have hshape : TableBuilder.encode k ++ tail = beBytes 8 k.length ++ (k ++ tail) := by
    simp [TableBuilder.encode, List.append_assoc]
  rw [hshape, parseIndexAux]
  have hlen : (beBytes 8 k.length ++ (k ++ tail)).length
      = 8 + k.length + tail.length := by
    simp [beBytes_length]
    omega
  have hne : beBytes 8 k.length ++ (k ++ tail) ≠ [] := by
    intro hcon
    have := congrArg List.length hcon
    simp [hlen] at this
  rw [if_neg hne]
  have h8 : ¬ (beBytes 8 k.length ++ (k ++ tail)).length < 8 := by
    rw [hlen]; omega
  rw [if_neg h8]
  have htake : (beBytes 8 k.length ++ (k ++ tail)).take 8 = beBytes 8 k.length :=
    take_app _ _ _ (beBytes_length 8 _)
  rw [htake, hkd]
  have hks : ¬ (beBytes 8 k.length ++ (k ++ tail)).length < 8 + k.length := by
    rw [hlen]; omega
  rw [if_neg hks]
  have hdrop8 : (beBytes 8 k.length ++ (k ++ tail)).drop 8 = k ++ tail :=
    drop_app _ _ _ (beBytes_length 8 _)
  have hkey : ((beBytes 8 k.length ++ (k ++ tail)).drop 8).take k.length = k := by
    rw [hdrop8]
    exact take_app _ _ _ rfl
  have hrest : (beBytes 8 k.length ++ (k ++ tail)).drop (8 + k.length) = tail := by
    have hassoc : beBytes 8 k.length ++ (k ++ tail)
        = (beBytes 8 k.length ++ k) ++ tail := by
      simp [List.append_assoc]
    rw [hassoc]
    exact drop_app _ _ _ (by simp [beBytes_length])
  rw [hkey, hrest]
  cases tail with
  | nil => rfl
  | cons tag rest2 => rfl

theorem parse_truncated_key (L : Nat) (bytes : List Nat)
    (acc : List (List Nat × IndexValue)) (hL : L < 2 ^ 64)
    (hshort : bytes.length < L) :
    parseIndexAux acc (beBytes 8 L ++ bytes) = .crash := by
  have h256 : (256 : Nat) ^ 8 = 2 ^ 64 := by norm_num
  have hLd : decodeBE (beBytes 8 L) = L :=
    decodeBE_beBytes_of_lt (by omega)
  rw [parseIndexAux]
  have hlen : (beBytes 8 L ++ bytes).length = 8 + bytes.length := by
    simp [beBytes_length]
  have hne : beBytes 8 L ++ bytes ≠ [] := by
    intro hcon
    have := congrArg List.length hcon
    simp [hlen] at this
  rw [if_neg hne]
  have h8 : ¬ (beBytes 8 L ++ bytes).length < 8 := by
    rw [hlen]; omega
  rw [if_neg h8]
  have htake : (beBytes 8 L ++ bytes).take 8 = beBytes 8 L :=
    take_app _ _ _ (beBytes_length 8 _)
  rw [htake, hLd]
  have hks : (beBytes 8 L ++ bytes).length < 8 + L := by
    rw [hlen]; omega
  rw [if_pos hks]

/-! ### Claim theorems -/

/-- C1: `DB::get` searches the `MemBuffer`, then the occupied hand-off
slot, then the on-disk generations from newest to oldest; at each stage a
present value returns `Some(v)`, a tombstone returns `None`, and an absent
key falls through; and for every key `k`, after `delete(k)` and before any
later `put(k, _)`, `get(k)` returns `None` regardless of earlier
`put(k, _)` in any stage. -/
theorem C1_search_order_and_delete_shadowing :
    (∀ s k, DBState.get s k = hitToResult (firstHit s k)) ∧
    (∀ s ops k, noPutTo k ops = true →
      DBState.get (runOps (applyOp s (.del k)) ops) k = none) := by
  refine ⟨get_eq_hit, ?_⟩
  intro s ops k hnp
  rw [get_eq_hit, firstHit_runOps _ _ _ hnp (firstHit_after_del s k)]
  rfl

theorem C1_witness :
    noPutTo [0] [Op.put [1] [2], Op.freeze, Op.flushStep] = true ∧
    DBState.get
      (runOps
        (applyOp
          { mem := [([0], MemValue.Value [7])],
            flushTable := some [([0], MemValue.Value [8])],
            gens := [[([0], MemValue.Value [9])]] }
          (.del [0]))
        [Op.put [1] [2], Op.freeze, Op.flushStep]) [0] = none :=
  ⟨by decide,
   C1_search_order_and_delete_shadowing.2
     { mem := [([0], MemValue.Value [7])],
       flushTable := some [([0], MemValue.Value [8])],
       gens := [[([0], MemValue.Value [9])]] }
     [Op.put [1] [2], Op.freeze, Op.flushStep] [0] (by decide)⟩

/-- C2: writing a `MemBuffer`'s entries through `TableBuilder::add` and
reading each key back through the opened generation yields the same
`MemValue`: present values byte-for-byte, tombstones as tombstones, and
keys outside the buffer report absent. -/
theorem C2_index_round_trip (entries : List (List Nat × MemValue))
    (hnd : (keysOf entries).Nodup)
    (hk : ∀ p ∈ entries, p.1.length < 2 ^ 64)
    (hsz : totalSize entries < 2 ^ 64) :
    ∃ t, Table.openModel ((TableBuilder.new 0).addAll entries).index
        ((TableBuilder.new 0).addAll entries).data = some (.ok t) ∧
      (∀ k v, (k, MemValue.Value v) ∈ entries →
        Table.getFuel 1 t k = some (.ok (some (.Value v)))) ∧
      (∀ k, (k, MemValue.Delete) ∈ entries →
        Table.getFuel 1 t k = some (.ok (some .Delete))) ∧
      (∀ k, k ∉ keysOf entries → Table.getFuel 1 t k = some (.ok none)) :=
  round_trip entries hnd hk hsz

theorem C2_witness :
    (keysOf [([1, 2], MemValue.Value [3]), ([4], MemValue.Delete)]).Nodup ∧
    totalSize [([1, 2], MemValue.Value [3]), ([4], MemValue.Delete)] < 2 ^ 64 ∧
    ∃ t, Table.openModel
        ((TableBuilder.new 0).addAll
          [([1, 2], MemValue.Value [3]), ([4], MemValue.Delete)]).index
        ((TableBuilder.new 0).addAll
          [([1, 2], MemValue.Value [3]), ([4], MemValue.Delete)]).data
        = some (.ok t) ∧
      (∀ k v, (k, MemValue.Value v)
          ∈ [([1, 2], MemValue.Value [3]), ([4], MemValue.Delete)] →
        Table.getFuel 1 t k = some (.ok (some (.Value v)))) ∧
      (∀ k, (k, MemValue.Delete)
          ∈ [([1, 2], MemValue.Value [3]), ([4], MemValue.Delete)] →
        Table.getFuel 1 t k = some (.ok (some .Delete))) ∧
      (∀ k, k ∉ keysOf [([1, 2], MemValue.Value [3]), ([4], MemValue.Delete)] →
        Table.getFuel 1 t k = some (.ok none)) :=
  ⟨by decide, by decide,
   C2_index_round_trip [([1, 2], MemValue.Value [3]), ([4], MemValue.Delete)]
     (by decide) (by decide) (by decide)⟩

/-- C3 counterexample: on an empty buffer, `put` with a 1-byte key and a
3-byte value makes `size()` 1, not the byte estimate `|key| + |value| = 4`
the claim states — `MemTable::size` is `self.table.len()`, the entry
count. -/
theorem C3_counterexample :
    (MemTable.new.put [0] [1, 2, 3]).size = 1 ∧ (1 : Nat) ≠ 0 + (1 + 3) := by
  constructor
  · rfl
  · decide

/-- C3 (amended): `MemBuffer::size()` is the number of entries, not a byte
estimate: it is 0 for an empty buffer; `put`/`delete` of a fresh key add
one, of an existing key leave it unchanged (under the map invariant of one
entry per key); it is monotonically non-decreasing between freezes; and
this count is what `put`/`delete` compare against `write_buffer_size` to
decide when to freeze. -/
theorem C3_size_is_entry_count :
    MemTable.new.size = 0 ∧
    (∀ (m : MemTable) k v, k ∉ keysOf m.table → (m.put k v).size = m.size + 1) ∧
    (∀ (m : MemTable) k v, (keysOf m.table).Nodup → k ∈ keysOf m.table →
      (m.put k v).size = m.size) ∧
    (∀ (m : MemTable) k, k ∉ keysOf m.table → (m.delete k).size = m.size + 1) ∧
    (∀ (m : MemTable) k, (keysOf m.table).Nodup → k ∈ keysOf m.table →
      (m.delete k).size = m.size) ∧
    (∀ (m : MemTable) k v, (keysOf m.table).Nodup → m.size ≤ (m.put k v).size) ∧
    (∀ (m : MemTable) k, (keysOf m.table).Nodup → m.size ≤ (m.delete k).size) ∧
    (∀ wbs (s : DBState) k v, wbs ≤ (insertA k (.Value v) s.mem).length →
      dbPut wbs s k v = applyOp { s with mem := insertA k (.Value v) s.mem } .freeze) ∧
    (∀ wbs (s : DBState) k v, (insertA k (.Value v) s.mem).length < wbs →
      dbPut wbs s k v = { s with mem := insertA k (.Value v) s.mem }) ∧
    (∀ wbs (s : DBState) k, wbs ≤ (insertA k MemValue.Delete s.mem).length →
      dbDelete wbs s k = applyOp { s with mem := insertA k MemValue.Delete s.mem } .freeze) ∧
    (∀ wbs (s : DBState) k, (insertA k MemValue.Delete s.mem).length < wbs →
      dbDelete wbs s k = { s with mem := insertA k MemValue.Delete s.mem }) := by
  refine ⟨rfl, ?_, ?_, ?_, ?_, ?_, ?_, ?_, ?_, ?_, ?_⟩
  · intro m k v h
    exact insertA_length_new k _ m.table h
  · intro m k v hnd h
    exact insertA_length_mem k _ m.table hnd h
  · intro m k h
    exact insertA_length_new k _ m.table h
  · intro m k hnd h
    exact insertA_length_mem k _ m.table hnd h
  · intro m k v hnd
    exact insertA_length_ge k _ m.table hnd
  · intro m k hnd
    exact insertA_length_ge k _ m.table hnd
  · intro wbs s k v h
    simp [dbPut, h]
  · intro wbs s k v h
    simp [dbPut, Nat.not_le_of_lt h]
  · intro wbs s k h
    simp [dbDelete, h]
  · intro wbs s k h
    simp [dbDelete, Nat.not_le_of_lt h]

theorem C3_witness :
    ([0] ∉ keysOf MemTable.new.table) ∧
    (MemTable.new.put [0] [9]).size = MemTable.new.size + 1 :=
  ⟨by decide,
   C3_size_is_entry_count.2.1 MemTable.new [0] [9] (by decide)⟩

/-- C4 counterexample: opening a generation whose index file is the single
byte `[0]` panics (`index_buf[0..8]` is out of range) instead of
returning a table or an error. -/
theorem C4_counterexample : Table.openModel [0] [] = none := by
  have h : parseIndexAux [] [0] = .crash := by
    rw [parseIndexAux]
    simp
  rw [Table.openModel, h]

/-- C4 (amended): parsing the index file always terminates, and an entry
with an unknown tag byte (neither 0 nor 1) yields a Corruption error; but
a truncated entry — fewer than 8 length bytes, a truncated key (8-byte
length present, fewer key bytes than declared), a missing tag, or a
truncated offset (fewer than 8 bytes after a present tag) — makes
`Table::open` panic on an out-of-range slice rather than return a
Corruption error; a well-formed builder-produced index parses into the
expected map. -/
theorem C4_parse_totality :
    (∀ acc buf, buf ≠ [] → buf.length < 8 → parseIndexAux acc buf = .crash) ∧
    (∀ acc L bytes, L < 2 ^ 64 → bytes.length < L →
      parseIndexAux acc (beBytes 8 L ++ bytes) = .crash) ∧
    (∀ acc key, key.length < 2 ^ 64 →
      parseIndexAux acc (TableBuilder.encode key) = .crash) ∧
    (∀ acc key rest, key.length < 2 ^ 64 → rest.length < 8 →
      parseIndexAux acc (TableBuilder.encode key ++ (0 :: rest)) = .crash) ∧
    (∀ acc key tag, key.length < 2 ^ 64 → tag ≠ 0 → tag ≠ 1 →
      parseIndexAux acc (TableBuilder.encode key ++ [tag]) = .corrupt) ∧
    (∀ es, (∀ p ∈ es, p.1.length < 2 ^ 64) → totalSize es ≤ 2 ^ 64 →
      parseIndexAux [] (indexBytesFrom 0 es) = .ok (insFold [] (ixEntries 0 es))) := by
  refine ⟨?_, ?_, ?_, ?_, ?_, ?_⟩
  · intro acc buf hne h8
    rw [parseIndexAux, if_neg hne, if_pos h8]
  · intro acc L bytes hL hshort
    exact parse_truncated_key L bytes acc hL hshort
  · intro acc key hk
    have h := parse_at_entry key [] acc hk
    simpa using h
  · intro acc key rest hk hrest
    rw [parse_at_entry key (0 :: rest) acc hk]
    simp [hrest]
  · intro acc key tag hk h0 h1
    rw [parse_at_entry key [tag] acc hk]
    simp [h0, h1]
  · intro es hk hsz
    exact parse_spec es [] 0 hk (by omega)

theorem C4_witness :
    (((5 : Nat) < 2 ^ 64 ∧ ([1, 2] : List Nat).length < 5) ∧
      parseIndexAux [] (beBytes 8 5 ++ [1, 2]) = .crash) ∧
    (([5, 6] : List Nat).length < 2 ^ 64 ∧
      parseIndexAux [] (TableBuilder.encode [5, 6] ++ (0 :: [9, 9])) = .crash) ∧
    parseIndexAux [] (TableBuilder.encode [5, 6] ++ [7]) = .corrupt ∧
    parseIndexAux [] (TableBuilder.encode [5, 6]) = .crash :=
  ⟨⟨⟨by decide, by decide⟩,
    C4_parse_totality.2.1 [] 5 [1, 2] (by decide) (by decide)⟩,
   ⟨by decide,
    C4_parse_totality.2.2.2.1 [] [5, 6] [9, 9] (by decide) (by decide)⟩,
   C4_parse_totality.2.2.2.2.1 [] [5, 6] 7 (by decide) (by decide) (by decide),
   C4_parse_totality.2.2.1 [] [5, 6] (by decide)⟩

/-- C5 counterexample: a data file whose length prefix declares 5 bytes
but which holds only 3 makes `Table::decode` loop forever (every read at
end-of-file returns 0 bytes), so `get` neither returns `Present` nor an
I/O error. -/
theorem C5_counterexample : decodeDiverges (beBytes 8 5 ++ [1, 2, 3]) 0 := by
  apply decodeFuel_diverges
  · decide
  · decide

/-- C5 (amended): `Table::decode` reads the 8-byte big-endian length `M`
at the offset (an I/O error when fewer than 8 bytes are available) and
returns exactly the `M` following bytes when the file holds them; but when
the file holds fewer than `M` bytes after the length prefix the read loop
never terminates — reads at end-of-file return 0 bytes and the loop spins
— instead of returning an I/O error. -/
theorem C5_decode_behaviour :
    (∀ file pos, file.length < pos + 8 →
      decodeFuel 1 file pos = some (.error .IOError)) ∧
    (∀ file pos, pos + 8 + decodeBE ((file.drop pos).take 8) ≤ file.length →
      decodeFuel 1 file pos
        = some (.ok ((file.drop (pos + 8)).take (decodeBE ((file.drop pos).take 8))))) ∧
    (∀ file pos, pos + 8 ≤ file.length →
      file.length < pos + 8 + decodeBE ((file.drop pos).take 8) →
      decodeDiverges file pos) := by
  refine ⟨?_, ?_, ?_⟩
  · intro file pos h
    exact decodeFuel_short file pos h 1
  · intro file pos h
    exact decodeFuel_success file pos (by omega) h 0
  · intro file pos h8 hshort
    exact decodeFuel_diverges file pos h8 hshort

theorem C5_witness :
    ((0 : Nat) + 8 + decodeBE (((beBytes 8 2 ++ [9, 8]).drop 0).take 8)
        ≤ (beBytes 8 2 ++ [9, 8]).length) ∧
    decodeFuel 1 (beBytes 8 2 ++ [9, 8]) 0
      = some (.ok (((beBytes 8 2 ++ [9, 8]).drop (0 + 8)).take
          (decodeBE (((beBytes 8 2 ++ [9, 8]).drop 0).take 8)))) :=
  ⟨by decide,
   C5_decode_behaviour.2.1 (beBytes 8 2 ++ [9, 8]) 0 (by decide)⟩

/-- C6: on a fresh builder, after any sequence of `add` calls followed by
`flush`, the written index file is exactly the concatenation, in call
order, of 8-byte big-endian key length, key bytes, one tag byte (0
present, 1 tombstone) and, for present entries only, the 8-byte big-endian
offset of that value's length prefix in the data file; the data file is
the concatenation of the present values' length-prefixed records in call
order; the running offset advances by `8 + |value|` per present entry and
is unchanged by tombstones (so it always equals the data file's length). -/
theorem C6_generation_file_layout (es : List (List Nat × MemValue)) :
    ((TableBuilder.new 0).addAll es).flush.1
      = (0, dataBytes es, indexBytesFrom 0 es) ∧
    ((TableBuilder.new 0).addAll es).offset = totalSize es ∧
    (dataBytes es).length = totalSize es := by
  rcases addAll_spec es (TableBuilder.new 0) with ⟨h1, h2, h3, h4⟩
  refine ⟨?_, ?_, dataBytes_length es⟩
  · rw [TableBuilder.flush, h4, h1, h2]
    rfl
  · rw [h3]
    simp [TableBuilder.new]

/-- C7: `open` fails with `InvalidName` exactly when the path is an
existing file, an existing directory without METADATA, or a missing path
with `create_if_missing` off; a missing path with `create_if_missing`
yields count 0; a directory with a METADATA of at least 8 bytes yields the
8-byte big-endian count. -/
theorem C7_open_invalid_name :
    (∀ ps c, num_log_files ps c = .error .DBNameInvalidError ↔
      (ps = .file ∨ ps = .dirNoMeta ∨ (ps = .absent ∧ c = false))) ∧
    num_log_files .absent true = .ok 0 ∧
    (∀ bytes c, 8 ≤ bytes.length →
      num_log_files (.dirWithMeta bytes) c = .ok (decodeBE (bytes.take 8))) := by
  refine ⟨?_, rfl, ?_⟩
  · intro ps c
    cases ps with
    | file => simp [num_log_files]
    | dirNoMeta => simp [num_log_files]
    | dirWithMeta contents =>
      by_cases h : contents.length < 8 <;> simp [num_log_files, h]
    | absent =>
      cases c <;> simp [num_log_files]
  · intro bytes c h
    have h' : ¬ bytes.length < 8 := by omega
    simp [num_log_files, h']

theorem C7_witness :
    (8 ≤ (beBytes 8 5).length) ∧
    num_log_files (.dirWithMeta (beBytes 8 5)) true
      = .ok (decodeBE ((beBytes 8 5).take 8)) :=
  ⟨by decide, C7_open_invalid_name.2.2 (beBytes 8 5) true (by decide)⟩

/-- C8: starting from a fresh directory, after `k` completed flushes the
METADATA file holds exactly `k` in 8-byte big-endian, the generation file
pairs exist exactly for ids `0 .. k-1`, the engine's counter equals `k`,
and each completed flush increases the counter, the builder's file id, and
the METADATA value by exactly one. -/
theorem C8_metadata_and_contiguity (k : Nat)
    (tbls : List (List (List Nat × MemValue)))
    (hlen : tbls.length = k) (hk : 0 < k) :
    (runFlushes freshSys tbls).meta = some (beBytes 8 k) ∧
    (runFlushes freshSys tbls).disk.map Prod.fst = List.range k ∧
    (runFlushes freshSys tbls).files = k ∧
    (∀ (s : SysState) t, (workerFlush s t).files = s.files + 1 ∧
      (workerFlush s t).builder.file_no = s.builder.file_no + 1 ∧
      (workerFlush s t).meta = some (beBytes 8 (s.builder.file_no + 1))) := by
  rcases runFlushes_spec tbls freshSys with ⟨h1, _, h3, h4⟩
  have hfz : freshSys.files = 0 := rfl
  have hbz : freshSys.builder.file_no = 0 := rfl
  have hdz : freshSys.disk.map Prod.fst = [] := rfl
  refine ⟨?_, ?_, ?_, ?_⟩
  · rw [h4, hbz, hlen]
    have hne : ¬ k = 0 := by omega
    simp [hne]
  · rw [h3, hdz, hbz, hlen]
    rw [List.range_eq_range']
    simp
  · rw [h1, hfz, hlen]
    omega
  · intro s t
    rcases workerFlush_fields s t with ⟨w1, w2, _, w4⟩
    exact ⟨w1, w2, w4⟩

theorem C8_witness :
    ([[([1], MemValue.Value [2])], [([1], MemValue.Delete)]].length = 2) ∧
    (0 : Nat) < 2 ∧
    (runFlushes freshSys [[([1], MemValue.Value [2])], [([1], MemValue.Delete)]]).meta
      = some (beBytes 8 2) ∧
    (runFlushes freshSys [[([1], MemValue.Value [2])], [([1], MemValue.Delete)]]).disk.map
      Prod.fst = List.range 2 :=
  ⟨rfl, by decide,
   (C8_metadata_and_contiguity 2 [[([1], MemValue.Value [2])], [([1], MemValue.Delete)]]
     rfl (by decide)).1,
   (C8_metadata_and_contiguity 2 [[([1], MemValue.Value [2])], [([1], MemValue.Delete)]]
     rfl (by decide)).2.1⟩

/-- C9 counterexample: on the state left by `close()` (empty buffer and
slot, flag set, no worker), `put` below the freeze threshold returns Ok —
not an error — and `put` at the threshold blocks forever on the condition
variable; the claim that `put` after `close` returns an error kind without
blocking is false on both counts. -/
theorem C9_counterexample :
    (putCtrl 100 (closeModel
      { mem := [], flushTable := none, flag := false,
        handle := true, workerAlive := true }).2 [0] [1]).1 = PutOutcome.ok ∧
    (putCtrl 1 (closeModel
      { mem := [], flushTable := none, flag := false,
        handle := true, workerAlive := true }).2 [0] [1]).1 = PutOutcome.blocked := by
  constructor
  · rfl
  · rfl

/-- C9 (amended): `close()` is idempotent — a second `close()` returns ok
and leaves the state unchanged; but after `close()` a `put` does not
return an error: below the freeze threshold it returns ok (the write lands
in the in-memory buffer only), and at or above the threshold it blocks
forever waiting for the dead worker to clear the flag. -/
theorem C9_close_idempotent :
    (∀ s, closeModel ((closeModel s).2) = (.ok (), (closeModel s).2)) ∧
    (∀ (s : CtrlState) k v wbs, s.handle = false → s.flag = true →
      s.workerAlive = false →
      (insertA k (.Value v) s.mem).length < wbs →
      (putCtrl wbs s k v).1 = .ok) ∧
    (∀ (s : CtrlState) k v wbs, s.handle = false → s.flag = true →
      s.workerAlive = false →
      wbs ≤ (insertA k (.Value v) s.mem).length →
      (putCtrl wbs s k v).1 = .blocked) := by
  refine ⟨?_, ?_, ?_⟩
  · intro s
    by_cases h : s.handle = false <;> simp [closeModel, h]
  · intro s k v wbs _ _ _ hlen
    simp [putCtrl, hlen]
  · intro s k v wbs _ hflag hworker hlen
    have h' : ¬ (insertA k (.Value v) s.mem).length < wbs := by omega
    simp [putCtrl, h', hflag, hworker]

theorem C9_witness :
    closeModel closedCtrl = (Except.ok (), closedCtrl) ∧
    (putCtrl 100 closedCtrl [0] [1]).1 = PutOutcome.ok :=
  ⟨C9_close_idempotent.1 openCtrl,
   C9_close_idempotent.2.1 closedCtrl [0] [1] 100 rfl rfl rfl (by decide)⟩

/-- C10: zero-length keys and values are accepted and distinguishable from
absence: after `put(k, [])`, `get(k)` returns `Some([])` (not `None`) while
the entry is in the `MemBuffer`, and a generation holding `(k, [])` read
back through the on-disk length-prefixed encoding also yields
`Present([])`; this includes the empty key. -/
theorem C10_empty_key_value (k : List Nat) (hk : k.length < 2 ^ 64) :
    (∀ m slot gens,
      DBState.get { mem := insertA k (.Value []) m, flushTable := slot, gens := gens } k
        = some []) ∧
    (∃ t, Table.openModel ((TableBuilder.new 0).addAll [(k, .Value [])]).index
        ((TableBuilder.new 0).addAll [(k, .Value [])]).data = some (.ok t) ∧
      Table.getFuel 1 t k = some (.ok (some (.Value [])))) := by
  constructor
  · intro m slot gens
    rw [DBState.get]
    dsimp only
    rw [lookupA_insert_self]
  · have hnd : (keysOf [(k, MemValue.Value ([] : List Nat))]).Nodup := by
      simp [keysOf]
    have hks : ∀ p ∈ [(k, MemValue.Value ([] : List Nat))], p.1.length < 2 ^ 64 := by
      intro p hp
      rcases List.mem_singleton.mp hp with rfl
      exact hk
    have hsz : totalSize [(k, MemValue.Value ([] : List Nat))] < 2 ^ 64 := by
      simp [totalSize, entrySize]
    rcases round_trip [(k, .Value [])] hnd hks hsz with ⟨t, hopen, hval, _, _⟩
    exact ⟨t, hopen, hval k [] (List.mem_singleton.mpr rfl)⟩

theorem C10_witness :
    (([] : List Nat).length < 2 ^ 64) ∧
    DBState.get { mem := insertA [] (.Value []) [], flushTable := none, gens := [] } []
      = some [] ∧
    (∃ t, Table.openModel ((TableBuilder.new 0).addAll [([], .Value [])]).index
        ((TableBuilder.new 0).addAll [([], .Value [])]).data = some (.ok t) ∧
      Table.getFuel 1 t [] = some (.ok (some (.Value [])))) :=
  ⟨by decide,
   (C10_empty_key_value [] (by decide)).1 [] none [],
   (C10_empty_key_value [] (by decide)).2⟩
